import Mathlib

/-!
Verification of the tokenizer of `minishell-parse-draft`.

The repository contains two tokenizer variants:
* `src/unnamed/part_000` — the richer variant: it keeps `SPACE` tokens, every
  token and error carries a full `PositionRange`, and newline characters are
  kept in the character stream.  This variant is embedded at top level below.
* `src/src/index.ts` — the simpler variant: no `SPACE` tokens, errors carry a
  point position, and the character stream drops newline characters.  It is
  embedded in the `IndexTs` namespace.

Conventions of the embedding:
* a JavaScript string is modelled as its sequence of characters (`List Char`);
* the tokenizer step functions receive the current character as an
  `Option Char`; `none` models the empty-string end-of-input sentinel `""`
  that the driver feeds after the last real character;
* JavaScript `"…".includes(char)` is membership for a one-character `char`
  and is `true` for `char = ""`; both cases are modelled explicitly;
* the source field name `end` is a Lean keyword, so ranges use `stop`;
* line and column numbers are `Int` because the end-of-input step is invoked
  with the off-stream coordinates `(-1, -1)`.
-/

/-!
Infrastructure for reasoning about the character stream.

`streamAux` is a direct structural recursion computing the same stream as
`charStream` (proved below): each character is annotated with a 1-based line
and 0-based column, the newline character itself sits at the end of its line,
and the counters reset after it.
-/

/-- The single-quote character `'` (code 39). -/
def squote : Char := Char.ofNat 39

/-- The double-quote character (code 34). -/
def dquote : Char := Char.ofNat 34

structure Position where
  line : Int
  column : Int
deriving DecidableEq, Repr

/-- `PositionRange` of the source; the source field `end` is the keyword-free
`stop` here. Both endpoints are inclusive. -/
structure PositionRange where
  start : Position
  stop : Position
deriving DecidableEq, Repr

/-- The token type of `src/unnamed/part_000` (`MS.Token`): every variant
carries its `PositionRange`, the word variants also carry their literal
body text. -/
inductive Token where
  | AND (range : PositionRange)
  | OR (range : PositionRange)
  | PIPE (range : PositionRange)
  | L (range : PositionRange)
  | LL (range : PositionRange)
  | R (range : PositionRange)
  | RR (range : PositionRange)
  | LPAREN (range : PositionRange)
  | RPAREN (range : PositionRange)
  | SPACE (range : PositionRange)
  | WORD (body : List Char) (range : PositionRange)
  | WORD_Q (body : List Char) (range : PositionRange)
  | WORD_DQ (body : List Char) (range : PositionRange)
  | EOF (range : PositionRange)
deriving DecidableEq, Repr

/-- The `PositionRange` carried by a token. -/
def Token.range : Token → PositionRange
  | .AND r => r
  | .OR r => r
  | .PIPE r => r
  | .L r => r
  | .LL r => r
  | .R r => r
  | .RR r => r
  | .LPAREN r => r
  | .RPAREN r => r
  | .SPACE r => r
  | .WORD _ r => r
  | .WORD_Q _ r => r
  | .WORD_DQ _ r => r
  | .EOF r => r

def Token.isEOF : Token → Bool
  | .EOF _ => true
  | _ => false

def Token.isSPACE : Token → Bool
  | .SPACE _ => true
  | _ => false

/-- `TokenizeError` of `part_000`: a message plus a start and end position. -/
structure TokenizeError where
  message : String
  start : Position
  stop : Position
deriving DecidableEq, Repr

def UnrecognizedToken (line column : Int) : TokenizeError :=
  { message := "Unrecognized token",
    start := { line := line, column := column },
    stop := { line := line, column := column } }

def UnterminatedString (start stop : Position) : TokenizeError :=
  { message := "Unterminated string", start := start, stop := stop }

/-- `TokenizerContext` of `part_000`, one constructor per automaton state,
each carrying exactly the payload of the corresponding source tuple. -/
inductive TokenizerContext where
  | INITIAL
  | ERROR (e : TokenizeError)
  | PREV_L (acc : List Token) (start : Position)
  | PREV_R (acc : List Token) (start : Position)
  | PREV_AND (acc : List Token) (start : Position)
  | PREV_OR (acc : List Token) (start : Position)
  | DEFAULT (acc : List Token)
  | SPACE (acc : List Token) (start stop : Position)
  | WORD (acc : List Token) (acc2 : List Char) (start stop : Position)
  | WORD_Q (acc : List Token) (acc2 : List Char) (start stop : Position)
  | WORD_DQ (acc : List Token) (acc2 : List Char) (start stop : Position)
deriving DecidableEq, Repr

/-- The whitespace set of the source string literal of space, tab, newline,
vertical tab, form feed and carriage return. -/
def wsChars : List Char := [' ', '\t', '\n', '\x0B', '\x0C', '\r']

/-- The unquoted-word delimiter set: whitespace plus the characters
left angle, right angle, both parens, ampersand and pipe. -/
def wordDelims : List Char := wsChars ++ ['<', '>', '(', ')', '&', '|']

/-- `tokenizeDefault` of `part_000`.  In the source the end-of-input check
(`char === ""`) sits after the operator checks; hoisting it to the top of the
match is equivalent because the empty string matches none of the earlier
branches (each either requires `char !== ""` or compares with a one-character
string). -/
def tokenizeDefault (char : Option Char) (line column : Int)
    (acc : List Token) : TokenizerContext :=
  match char with
  | none =>
    .DEFAULT (acc ++ [.EOF ⟨⟨line, column⟩, ⟨line, column⟩⟩])
  | some c =>
    if c ∈ wsChars then
      .SPACE acc ⟨line, column⟩ ⟨line, column⟩
    else if c = '<' then
      .PREV_L acc ⟨line, column⟩
    else if c = '>' then
      .PREV_R acc ⟨line, column⟩
    else if c = '&' then
      .PREV_AND acc ⟨line, column⟩
    else if c = '|' then
      .PREV_OR acc ⟨line, column⟩
    else if c = '(' then
      .DEFAULT (acc ++ [.LPAREN ⟨⟨line, column⟩, ⟨line, column⟩⟩])
    else if c = ')' then
      .DEFAULT (acc ++ [.RPAREN ⟨⟨line, column⟩, ⟨line, column⟩⟩])
    else if c = dquote then
      .WORD_DQ acc [] ⟨line, column⟩ ⟨line, column⟩
    else if c = squote then
      .WORD_Q acc [] ⟨line, column⟩ ⟨line, column⟩
    else
      .WORD acc [c] ⟨line, column⟩ ⟨line, column⟩

def tokenizeInitial (char : Option Char) (line column : Int) :
    TokenizerContext :=
  tokenizeDefault char line column []

def tokenizePrevL (char : Option Char) (line column : Int)
    (acc : List Token) (start : Position) : TokenizerContext :=
  if char = some '<' then
    .DEFAULT (acc ++ [.LL ⟨start, ⟨line, column⟩⟩])
  else
    tokenizeDefault char line column (acc ++ [.L ⟨start, start⟩])

def tokenizePrevR (char : Option Char) (line column : Int)
    (acc : List Token) (start : Position) : TokenizerContext :=
  if char = some '>' then
    .DEFAULT (acc ++ [.RR ⟨start, ⟨line, column⟩⟩])
  else
    tokenizeDefault char line column (acc ++ [.R ⟨start, start⟩])

def tokenizePrevAnd (char : Option Char) (line column : Int)
    (acc : List Token) (start : Position) : TokenizerContext :=
  if char = some '&' then
    .DEFAULT (acc ++ [.AND ⟨start, ⟨line, column⟩⟩])
  else
    .ERROR (UnrecognizedToken line column)

def tokenizePrevOr (char : Option Char) (line column : Int)
    (acc : List Token) (start : Position) : TokenizerContext :=
  if char = some '|' then
    .DEFAULT (acc ++ [.OR ⟨start, ⟨line, column⟩⟩])
  else
    tokenizeDefault char line column (acc ++ [.PIPE ⟨start, start⟩])

/-- `tokenizeSpace` of `part_000`: the guard is the source's
`char !== "" && " \t\n\v\f\r".includes(char)`. -/
def tokenizeSpace (char : Option Char) (line column : Int)
    (acc : List Token) (start stop : Position) : TokenizerContext :=
  match char with
  | some c =>
    if c ∈ wsChars then
      .SPACE acc start ⟨line, column⟩
    else
      tokenizeDefault (some c) line column (acc ++ [.SPACE ⟨start, stop⟩])
  | none =>
    tokenizeDefault none line column (acc ++ [.SPACE ⟨start, stop⟩])

/-- `tokenizeWord` of `part_000`: the source guard is
`" \t\n\v\f\r<>()&|".includes(char)`, which is `true` for the end-of-input
sentinel `""` (JavaScript `includes("")` is always `true`). -/
def tokenizeWord (char : Option Char) (line column : Int)
    (acc : List Token) (acc2 : List Char) (start stop : Position) :
    TokenizerContext :=
  match char with
  | none =>
    tokenizeDefault none line column (acc ++ [.WORD acc2 ⟨start, stop⟩])
  | some c =>
    if c ∈ wordDelims then
      tokenizeDefault (some c) line column (acc ++ [.WORD acc2 ⟨start, stop⟩])
    else
      .WORD acc (acc2 ++ [c]) start ⟨line, column⟩

def tokenizeWordQ (char : Option Char) (line column : Int)
    (acc : List Token) (acc2 : List Char) (start stop : Position) :
    TokenizerContext :=
  match char with
  | none =>
    .ERROR (UnterminatedString start stop)
  | some c =>
    if c = squote then
      .DEFAULT (acc ++ [.WORD_Q acc2 ⟨start, ⟨line, column⟩⟩])
    else
      .WORD_Q acc (acc2 ++ [c]) start ⟨line, column⟩

def tokenizeWordDQ (char : Option Char) (line column : Int)
    (acc : List Token) (acc2 : List Char) (start stop : Position) :
    TokenizerContext :=
  match char with
  | none =>
    .ERROR (UnterminatedString start stop)
  | some c =>
    if c = dquote then
      .DEFAULT (acc ++ [.WORD_DQ acc2 ⟨start, ⟨line, column⟩⟩])
    else
      .WORD_DQ acc (acc2 ++ [c]) start ⟨line, column⟩

/-- One driver step: the dispatch through `tokenizerMap` on the context tag.
The source driver loop returns as soon as a step yields `ERROR` and never
feeds another character to an `ERROR` context; making `ERROR` absorbing here
models that early return extensionally. -/
def tokenizeStep (char : Option Char) (line column : Int) :
    TokenizerContext → TokenizerContext
  | .INITIAL => tokenizeInitial char line column
  | .ERROR e => .ERROR e
  | .PREV_L acc start => tokenizePrevL char line column acc start
  | .PREV_R acc start => tokenizePrevR char line column acc start
  | .PREV_AND acc start => tokenizePrevAnd char line column acc start
  | .PREV_OR acc start => tokenizePrevOr char line column acc start
  | .DEFAULT acc => tokenizeDefault char line column acc
  | .SPACE acc start stop => tokenizeSpace char line column acc start stop
  | .WORD acc acc2 start stop =>
    tokenizeWord char line column acc acc2 start stop
  | .WORD_Q acc acc2 start stop =>
    tokenizeWordQ char line column acc acc2 start stop
  | .WORD_DQ acc acc2 start stop =>
    tokenizeWordDQ char line column acc acc2 start stop

/-- One element of the character stream: a character with its 1-based line
and 0-based column. -/
structure StreamEntry where
  char : Char
  line : Int
  column : Int
deriving DecidableEq, Repr

/-- The character stream of `part_000`'s `tokenize`:
`input.split("\n")`, re-append `"\n"` to every line except the last, then
`flatMap` each line's characters to `(char, line index + 1, column)`. -/
def charStream (input : List Char) : List StreamEntry :=
  let ls := input.splitOn '\n'
  let ls2 := ls.mapIdx (fun i l => if i = ls.length - 1 then l else l ++ ['\n'])
  ls2.enum.flatMap (fun p =>
    p.2.enum.map (fun q => ⟨q.2, (p.1 : Int) + 1, (q.1 : Int)⟩))

/-- The driver loop over the character stream. -/
def tokenizeRun (entries : List StreamEntry) (ctx : TokenizerContext) :
    TokenizerContext :=
  match entries with
  | [] => ctx
  | e :: rest => tokenizeRun rest (tokenizeStep (some e.char) e.line e.column ctx)

/-- The context after the loop and the final step, which the source invokes
with the sentinel `("", -1, -1)`. -/
def finalContext (input : List Char) : TokenizerContext :=
  tokenizeStep none (-1) (-1) (tokenizeRun (charStream input) .INITIAL)

/-- The three possible outcomes of `tokenize`: the token list, the first
error, or the `throw new Error("must never called")` branch. -/
inductive TokenizeResult where
  | ok (tokens : List Token)
  | err (e : TokenizeError)
  | internalError
deriving DecidableEq, Repr

/-- `tokenize` of `src/unnamed/part_000`. -/
def tokenize (input : List Char) : TokenizeResult :=
  match finalContext input with
  | .ERROR e => .err e
  | .DEFAULT acc => .ok acc
  | _ => .internalError

def streamAux (line col : Nat) : List Char → List StreamEntry
  | [] => []
  | c :: rest =>
    ⟨c, (line : Int), (col : Int)⟩ ::
      (if c = '\n' then streamAux (line + 1) 0 rest
       else streamAux line (col + 1) rest)

/-- The entries of one source line `l`, at 0-based line index `n`, columns
starting at `m`. -/
def lineEntries (n m : Nat) (l : List Char) : List StreamEntry :=
  (l.enumFrom m).map (fun q => ⟨q.2, (n : Int) + 1, (q.1 : Int)⟩)

/-- The entries of a list of lines, first line at 0-based index `n` with
columns starting at `m`, later lines with columns from 0. -/
def linesEntries (n m : Nat) : List (List Char) → List StreamEntry
  | [] => []
  | l :: ls => lineEntries n m l ++ linesEntries (n + 1) 0 ls

/-- The `map` of the source that re-appends a newline to every line except
the last. -/
def markLines (ls : List (List Char)) : List (List Char) :=
  ls.mapIdx (fun i l => if i = ls.length - 1 then l else l ++ ['\n'])

/-- Structural-recursion reformulation of `markLines`. -/
def markLinesRec : List (List Char) → List (List Char)
  | [] => []
  | [l] => [l]
  | l :: l' :: ls => (l ++ ['\n']) :: markLinesRec (l' :: ls)

/-- Strict lexicographic order on positions. -/
def posLt (a b : Position) : Prop :=
  a.line < b.line ∨ (a.line = b.line ∧ a.column < b.column)

/-- Lexicographic order on positions. -/
def posLe (a b : Position) : Prop :=
  a.line < b.line ∨ (a.line = b.line ∧ a.column ≤ b.column)

instance (a b : Position) : Decidable (posLt a b) := by
  unfold posLt
  infer_instance

instance (a b : Position) : Decidable (posLe a b) := by
  unfold posLe
  infer_instance

/-- The position of a stream entry. -/
def StreamEntry.pos (e : StreamEntry) : Position := ⟨e.line, e.column⟩

/-- The position of the stream entry at index `i` (a junk value past the
end; every use is guarded by an index bound). -/
def posAt (S : List StreamEntry) (i : Nat) : Position :=
  match S[i]? with
  | some e => e.pos
  | none => ⟨0, 0⟩

/-- The character of the stream entry at index `i`. -/
def charAt (S : List StreamEntry) (i : Nat) : Option Char :=
  (S[i]?).map (fun e => e.char)

/-- No token of the list is an `EOF`. -/
def NoEOF (acc : List Token) : Prop := ∀ t ∈ acc, t.isEOF = false

/-- `tilesFrom S a ts b`: the ranges of the tokens `ts`, in order, exactly
cover the consecutive index intervals partitioning `[a, b)` of the stream
`S` — each token's range starts at the position of its first index and stops
at the position of its last. -/
def tilesFrom (S : List StreamEntry) : Nat → List Token → Nat → Prop
  | a, [], b => a = b
  | a, t :: ts, b => ∃ c, a < c ∧ c ≤ b ∧ t.range.start = posAt S a ∧
      t.range.stop = posAt S (c - 1) ∧ tilesFrom S c ts b

/-- The driver invariant: after the first `n` stream entries have been
consumed, each state's accumulated tokens tile the consumed prefix and its
pending-token payload records the pending token's start and the position of
the last consumed entry. -/
def TokInv (S : List StreamEntry) (n : Nat) : TokenizerContext → Prop
  | .INITIAL => n = 0
  | .ERROR _ => True
  | .DEFAULT acc => NoEOF acc ∧ tilesFrom S 0 acc n
  | .SPACE acc start stop => ∃ k, NoEOF acc ∧ tilesFrom S 0 acc k ∧ k < n ∧
      start = posAt S k ∧ stop = posAt S (n - 1)
  | .WORD acc _ start stop => ∃ k, NoEOF acc ∧ tilesFrom S 0 acc k ∧ k < n ∧
      start = posAt S k ∧ stop = posAt S (n - 1)
  | .WORD_Q acc _ start stop => ∃ k, NoEOF acc ∧ tilesFrom S 0 acc k ∧
      k < n ∧ start = posAt S k ∧ stop = posAt S (n - 1) ∧
      charAt S k = some squote
  | .WORD_DQ acc _ start stop => ∃ k, NoEOF acc ∧ tilesFrom S 0 acc k ∧
      k < n ∧ start = posAt S k ∧ stop = posAt S (n - 1) ∧
      charAt S k = some dquote
  | .PREV_L acc start => NoEOF acc ∧ 1 ≤ n ∧ tilesFrom S 0 acc (n - 1) ∧
      start = posAt S (n - 1)
  | .PREV_R acc start => NoEOF acc ∧ 1 ≤ n ∧ tilesFrom S 0 acc (n - 1) ∧
      start = posAt S (n - 1)
  | .PREV_AND acc start => NoEOF acc ∧ 1 ≤ n ∧ tilesFrom S 0 acc (n - 1) ∧
      start = posAt S (n - 1)
  | .PREV_OR acc start => NoEOF acc ∧ 1 ≤ n ∧ tilesFrom S 0 acc (n - 1) ∧
      start = posAt S (n - 1)

/-- Whether a position lies inside a (lexicographically ordered, inclusive)
position range. -/
def inRange (r : PositionRange) (p : Position) : Bool :=
  decide (posLe r.start p) && decide (posLe p r.stop)

/-- The literal source text covered by a position range: the characters of
the stream entries whose positions lie inside the range, in stream order. -/
def sliceRange (input : List Char) (r : PositionRange) : List Char :=
  ((charStream input).filter (fun e => inRange r e.pos)).map (fun e => e.char)

namespace IndexTs

/-- The token type of `src/src/index.ts` (`MS.Token`): same as the other
variant but with no `SPACE` token. -/
inductive Token where
  | AND (range : PositionRange)
  | OR (range : PositionRange)
  | PIPE (range : PositionRange)
  | L (range : PositionRange)
  | LL (range : PositionRange)
  | R (range : PositionRange)
  | RR (range : PositionRange)
  | LPAREN (range : PositionRange)
  | RPAREN (range : PositionRange)
  | WORD (body : List Char) (range : PositionRange)
  | WORD_Q (body : List Char) (range : PositionRange)
  | WORD_DQ (body : List Char) (range : PositionRange)
  | EOF (range : PositionRange)
deriving DecidableEq, Repr

/-- `TokenizeError` of `index.ts`: a message plus a point position. -/
structure TokenizeError where
  message : String
  line : Int
  column : Int
deriving DecidableEq, Repr

def UnrecognizedToken (line column : Int) : TokenizeError :=
  { message := "Unrecognized token", line := line, column := column }

def UnterminatedString (line column : Int) : TokenizeError :=
  { message := "Unterminated string", line := line, column := column }

/-- `TokenizerContext` of `index.ts`: `SPACE` carries only the accumulator,
the quote states carry no running end position. -/
inductive TokenizerContext where
  | INITIAL
  | ERROR (e : TokenizeError)
  | SPACE (acc : List Token)
  | PREV_L (acc : List Token) (start : Position)
  | PREV_R (acc : List Token) (start : Position)
  | PREV_AND (acc : List Token) (start : Position)
  | PREV_OR (acc : List Token) (start : Position)
  | DEFAULT (acc : List Token)
  | WORD (acc : List Token) (acc2 : List Char) (start stop : Position)
  | WORD_Q (acc : List Token) (acc2 : List Char) (start : Position)
  | WORD_DQ (acc : List Token) (acc2 : List Char) (start : Position)
deriving DecidableEq, Repr

/-- `tokenizeDefault` of `index.ts`; same dispatch as the other variant,
but entering `SPACE` and the quote states stores less payload. -/
def tokenizeDefault (char : Option Char) (line column : Int)
    (acc : List Token) : TokenizerContext :=
  match char with
  | none =>
    .DEFAULT (acc ++ [.EOF ⟨⟨line, column⟩, ⟨line, column⟩⟩])
  | some c =>
    if c ∈ wsChars then
      .SPACE acc
    else if c = '<' then
      .PREV_L acc ⟨line, column⟩
    else if c = '>' then
      .PREV_R acc ⟨line, column⟩
    else if c = '&' then
      .PREV_AND acc ⟨line, column⟩
    else if c = '|' then
      .PREV_OR acc ⟨line, column⟩
    else if c = '(' then
      .DEFAULT (acc ++ [.LPAREN ⟨⟨line, column⟩, ⟨line, column⟩⟩])
    else if c = ')' then
      .DEFAULT (acc ++ [.RPAREN ⟨⟨line, column⟩, ⟨line, column⟩⟩])
    else if c = dquote then
      .WORD_DQ acc [] ⟨line, column⟩
    else if c = squote then
      .WORD_Q acc [] ⟨line, column⟩
    else
      .WORD acc [c] ⟨line, column⟩ ⟨line, column⟩

def tokenizeInitial (char : Option Char) (line column : Int) :
    TokenizerContext :=
  tokenizeDefault char line column []

def tokenizeSpace (char : Option Char) (line column : Int)
    (acc : List Token) : TokenizerContext :=
  match char with
  | some c =>
    if c ∈ wsChars then
      .SPACE acc
    else
      tokenizeDefault (some c) line column acc
  | none =>
    tokenizeDefault none line column acc

def tokenizePrevL (char : Option Char) (line column : Int)
    (acc : List Token) (start : Position) : TokenizerContext :=
  if char = some '<' then
    .DEFAULT (acc ++ [.LL ⟨start, ⟨line, column⟩⟩])
  else
    tokenizeDefault char line column (acc ++ [.L ⟨start, start⟩])

def tokenizePrevR (char : Option Char) (line column : Int)
    (acc : List Token) (start : Position) : TokenizerContext :=
  if char = some '>' then
    .DEFAULT (acc ++ [.RR ⟨start, ⟨line, column⟩⟩])
  else
    tokenizeDefault char line column (acc ++ [.R ⟨start, start⟩])

def tokenizePrevAnd (char : Option Char) (line column : Int)
    (acc : List Token) (start : Position) : TokenizerContext :=
  if char = some '&' then
    .DEFAULT (acc ++ [.AND ⟨start, ⟨line, column⟩⟩])
  else
    .ERROR (UnrecognizedToken line column)

def tokenizePrevOr (char : Option Char) (line column : Int)
    (acc : List Token) (start : Position) : TokenizerContext :=
  if char = some '|' then
    .DEFAULT (acc ++ [.OR ⟨start, ⟨line, column⟩⟩])
  else
    tokenizeDefault char line column (acc ++ [.PIPE ⟨start, start⟩])

def tokenizeWord (char : Option Char) (line column : Int)
    (acc : List Token) (acc2 : List Char) (start stop : Position) :
    TokenizerContext :=
  match char with
  | none =>
    tokenizeDefault none line column (acc ++ [.WORD acc2 ⟨start, stop⟩])
  | some c =>
    if c ∈ wordDelims then
      tokenizeDefault (some c) line column (acc ++ [.WORD acc2 ⟨start, stop⟩])
    else
      .WORD acc (acc2 ++ [c]) start ⟨line, column⟩

def tokenizeWordQ (char : Option Char) (line column : Int)
    (acc : List Token) (acc2 : List Char) (start : Position) :
    TokenizerContext :=
  match char with
  | none =>
    .ERROR (UnterminatedString line column)
  | some c =>
    if c = squote then
      .DEFAULT (acc ++ [.WORD_Q acc2 ⟨start, ⟨line, column⟩⟩])
    else
      .WORD_Q acc (acc2 ++ [c]) start

/-- `tokenizeWordDQ` of `index.ts`.  Note the accumulating branch of the
source returns a `WORD_Q`-tagged continuation (`["WORD_Q", acc, acc2 + char,
start]`), not a `WORD_DQ` one; the embedding reproduces that faithfully. -/
def tokenizeWordDQ (char : Option Char) (line column : Int)
    (acc : List Token) (acc2 : List Char) (start : Position) :
    TokenizerContext :=
  match char with
  | none =>
    .ERROR (UnterminatedString line column)
  | some c =>
    if c = dquote then
      .DEFAULT (acc ++ [.WORD_DQ acc2 ⟨start, ⟨line, column⟩⟩])
    else
      .WORD_Q acc (acc2 ++ [c]) start

/-- The dispatch through `index.ts`'s `tokenizerMap`; `ERROR` is absorbing
for the same reason as in the other variant. -/
def tokenizeStep (char : Option Char) (line column : Int) :
    TokenizerContext → TokenizerContext
  | .INITIAL => tokenizeInitial char line column
  | .ERROR e => .ERROR e
  | .SPACE acc => tokenizeSpace char line column acc
  | .PREV_L acc start => tokenizePrevL char line column acc start
  | .PREV_R acc start => tokenizePrevR char line column acc start
  | .PREV_AND acc start => tokenizePrevAnd char line column acc start
  | .PREV_OR acc start => tokenizePrevOr char line column acc start
  | .DEFAULT acc => tokenizeDefault char line column acc
  | .WORD acc acc2 start stop =>
    tokenizeWord char line column acc acc2 start stop
  | .WORD_Q acc acc2 start => tokenizeWordQ char line column acc acc2 start
  | .WORD_DQ acc acc2 start => tokenizeWordDQ char line column acc acc2 start

/-- The character stream of `index.ts`'s `tokenize`: `input.split("\n")`
directly flat-mapped to `(char, line index + 1, column)` triples — unlike the
other variant, the newline characters themselves are dropped. -/
def charStream (input : List Char) : List StreamEntry :=
  (input.splitOn '\n').enum.flatMap (fun p =>
    p.2.enum.map (fun q => ⟨q.2, (p.1 : Int) + 1, (q.1 : Int)⟩))

def tokenizeRun (entries : List StreamEntry) (ctx : TokenizerContext) :
    TokenizerContext :=
  match entries with
  | [] => ctx
  | e :: rest => tokenizeRun rest (tokenizeStep (some e.char) e.line e.column ctx)

def finalContext (input : List Char) : TokenizerContext :=
  tokenizeStep none (-1) (-1) (tokenizeRun (charStream input) .INITIAL)

inductive TokenizeResult where
  | ok (tokens : List Token)
  | err (e : TokenizeError)
  | internalError
deriving DecidableEq, Repr

/-- `tokenize` of `src/src/index.ts`. -/
def tokenize (input : List Char) : TokenizeResult :=
  match finalContext input with
  | .ERROR e => .err e
  | .DEFAULT acc => .ok acc
  | _ => .internalError

end IndexTs

theorem lineEntries_nil (n m : Nat) : lineEntries n m [] = [] := rfl

theorem lineEntries_cons (n m : Nat) (c : Char) (l : List Char) :
    lineEntries n m (c :: l) =
      ⟨c, (n : Int) + 1, (m : Int)⟩ :: lineEntries n (m + 1) l := by
  simp [lineEntries, List.enumFrom_cons]

theorem enum_flatMap_eq_linesEntries (ls : List (List Char)) (n : Nat) :
    (ls.enumFrom n).flatMap (fun p =>
        p.2.enum.map (fun q => ⟨q.2, (p.1 : Int) + 1, (q.1 : Int)⟩)) =
      linesEntries n 0 ls := by
  induction ls generalizing n with
  | nil => rfl
  | cons l ls ih =>
    simp only [List.enumFrom_cons, List.flatMap_cons, linesEntries, ih]
    rfl

theorem mark_enumFrom (total : Nat) (ls : List (List Char)) (k : Nat)
    (hk : k + ls.length = total) :
    (ls.enumFrom k).map (Function.uncurry
        (fun i l => if i = total - 1 then l else l ++ ['\n'])) =
      markLinesRec ls := by
  induction ls generalizing k with
  | nil => rfl
  | cons l ls ih =>
    rw [List.enumFrom_cons, List.map_cons]
    cases ls with
    | nil =>
      have : k = total - 1 := by
        simp at hk
        omega
      simp [Function.uncurry, this, markLinesRec]
    | cons l' ls' =>
      have hne : ¬ (k = total - 1) := by
        simp at hk
        omega
      have htail := ih (k + 1) (by simp at hk ⊢; omega)
      simp only [Function.uncurry] at htail ⊢
      rw [htail]
      simp [hne, markLinesRec]

theorem markLines_eq_rec (ls : List (List Char)) :
    markLines ls = markLinesRec ls := by
  unfold markLines
  rw [List.mapIdx_eq_enum_map]
  exact mark_enumFrom ls.length ls 0 (by omega)

theorem markLines_cons (l : List Char) (ls : List (List Char)) :
    markLines (l :: ls) =
      (if ls = [] then l else l ++ ['\n']) :: markLines ls := by
  rw [markLines_eq_rec, markLines_eq_rec]
  cases ls with
  | nil => rfl
  | cons l' ls' => simp [markLinesRec]

theorem charStream_eq_linesEntries (input : List Char) :
    charStream input = linesEntries 0 0 (markLines (input.splitOn '\n')) := by
  rw [charStream, markLines]
  exact enum_flatMap_eq_linesEntries _ 0

theorem splitOn_char_cons (c : Char) (rest : List Char) :
    (c :: rest).splitOn '\n' =
      if c = '\n' then [] :: rest.splitOn '\n'
      else (rest.splitOn '\n').modifyHead (List.cons c) := by
  simp only [List.splitOn, List.splitOnP_cons, beq_iff_eq]

theorem linesEntries_markLines (input : List Char) (n m : Nat) :
    linesEntries n m (markLines (input.splitOn '\n')) =
      streamAux (n + 1) m input := by
  induction input generalizing n m with
  | nil =>
    simp [markLines, linesEntries, lineEntries, streamAux]
  | cons c rest ih =>
    rw [splitOn_char_cons]
    by_cases hc : c = '\n'
    · have hnn : rest.splitOn '\n' ≠ [] := List.splitOnP_ne_nil _ rest
      rw [if_pos hc, markLines_cons, if_neg hnn]
      rw [List.nil_append, linesEntries, lineEntries_cons, lineEntries_nil]
      rw [streamAux, if_pos hc]
      rw [ih (n + 1) 0]
      subst hc
      push_cast
      simp
    · rw [if_neg hc]
      rcases h' : rest.splitOn '\n' with _ | ⟨h, t⟩
      · exact absurd h' (List.splitOnP_ne_nil _ rest)
      rw [List.modifyHead]
      rw [markLines_cons]
      have hmark : markLines (h :: t) =
          (if t = [] then h else h ++ ['\n']) :: markLines t :=
        markLines_cons h t
      have hpush : (if t = [] then c :: h else c :: h ++ ['\n']) =
          c :: (if t = [] then h else h ++ ['\n']) := by
        split <;> rfl
      rw [hpush]
      rw [linesEntries, lineEntries_cons]
      have hre : lineEntries n (m + 1) (if t = [] then h else h ++ ['\n']) ++
          linesEntries (n + 1) 0 (markLines t) =
          linesEntries n (m + 1) (markLines (h :: t)) := by
        rw [hmark, linesEntries]
      rw [List.cons_append, hre, ← h', ih n (m + 1)]
      rw [streamAux, if_neg hc]
      norm_num

theorem charStream_eq_streamAux (input : List Char) :
    charStream input = streamAux 1 0 input := by
  rw [charStream_eq_linesEntries, linesEntries_markLines]

theorem streamAux_map_char (line col : Nat) (input : List Char) :
    (streamAux line col input).map (fun e => e.char) = input := by
  induction input generalizing line col with
  | nil => rfl
  | cons c rest ih =>
    rw [streamAux]
    by_cases hc : c = '\n'
    · rw [if_pos hc, List.map_cons, ih]
    · rw [if_neg hc, List.map_cons, ih]

/-- The character stream spells out the input. -/
theorem charStream_map_char (input : List Char) :
    (charStream input).map (fun e => e.char) = input := by
  rw [charStream_eq_streamAux, streamAux_map_char]

theorem streamAux_length (line col : Nat) (input : List Char) :
    (streamAux line col input).length = input.length := by
  have h := streamAux_map_char line col input
  calc (streamAux line col input).length
      = ((streamAux line col input).map (fun e => e.char)).length := by
        rw [List.length_map]
    _ = input.length := by rw [h]

theorem charStream_length (input : List Char) :
    (charStream input).length = input.length := by
  rw [charStream_eq_streamAux, streamAux_length]

theorem streamAux_pos_ge (line col : Nat) (input : List Char) :
    ∀ e ∈ streamAux line col input,
      posLe ⟨(line : Int), (col : Int)⟩ e.pos := by
  induction input generalizing line col with
  | nil => intro e he; cases he
  | cons c rest ih =>
    intro e he
    rw [streamAux] at he
    rcases List.mem_cons.mp he with h | h
    · subst h
      simp [posLe, StreamEntry.pos]
    · by_cases hc : c = '\n'
      · rw [if_pos hc] at h
        have hle := ih (line + 1) 0 e h
        simp only [posLe, StreamEntry.pos] at hle ⊢
        push_cast at hle ⊢
        omega
      · rw [if_neg hc] at h
        have hle := ih line (col + 1) e h
        simp only [posLe, StreamEntry.pos] at hle ⊢
        push_cast at hle ⊢
        omega

theorem streamAux_pairwise (line col : Nat) (input : List Char) :
    (streamAux line col input).Pairwise (fun a b => posLt a.pos b.pos) := by
  induction input generalizing line col with
  | nil => exact List.Pairwise.nil
  | cons c rest ih =>
    rw [streamAux]
    by_cases hc : c = '\n'
    · rw [if_pos hc]
      refine List.Pairwise.cons ?_ (ih (line + 1) 0)
      intro e he
      have hle := streamAux_pos_ge (line + 1) 0 rest e he
      simp only [posLe, posLt, StreamEntry.pos] at hle ⊢
      push_cast at hle ⊢
      omega
    · rw [if_neg hc]
      refine List.Pairwise.cons ?_ (ih line (col + 1))
      intro e he
      have hle := streamAux_pos_ge line (col + 1) rest e he
      simp only [posLe, posLt, StreamEntry.pos] at hle ⊢
      push_cast at hle ⊢
      omega

/-- Positions strictly increase along the character stream. -/
theorem charStream_pairwise (input : List Char) :
    (charStream input).Pairwise (fun a b => posLt a.pos b.pos) := by
  rw [charStream_eq_streamAux]
  exact streamAux_pairwise 1 0 input

theorem posAt_eq {S : List StreamEntry} {n : Nat} {e : StreamEntry}
    (he : S[n]? = some e) : posAt S n = e.pos := by
  simp [posAt, he]

theorem NoEOF_nil : NoEOF [] := by intro t ht; cases ht

theorem NoEOF_append {acc : List Token} {t : Token} (h : NoEOF acc)
    (ht : t.isEOF = false) : NoEOF (acc ++ [t]) := by
  intro x hx
  rcases List.mem_append.mp hx with h1 | h1
  · exact h x h1
  · rcases List.mem_singleton.mp h1 with rfl
    exact ht

theorem tilesFrom_snoc {S : List StreamEntry} {a b c : Nat} {ts : List Token}
    {t : Token} (hts : tilesFrom S a ts b) (hbc : b < c)
    (hstart : t.range.start = posAt S b)
    (hstop : t.range.stop = posAt S (c - 1)) :
    tilesFrom S a (ts ++ [t]) c := by
  induction ts generalizing a with
  | nil =>
    have hab : a = b := hts
    subst hab
    exact ⟨c, hbc, le_refl c, hstart, hstop, rfl⟩
  | cons t' ts' ih =>
    obtain ⟨c', h1, h2, h3, h4, h5⟩ := hts
    exact ⟨c', h1, by omega, h3, h4, ih h5⟩

theorem tilesFrom_le {S : List StreamEntry} {a b : Nat} {ts : List Token}
    (h : tilesFrom S a ts b) : a ≤ b := by
  induction ts generalizing a with
  | nil =>
    have hab : a = b := h
    omega
  | cons t ts ih =>
    obtain ⟨c, h1, h2, _, _, h5⟩ := h
    have := ih h5
    omega

theorem tokInv_tokenizeDefault {S : List StreamEntry} {n : Nat}
    {e : StreamEntry} (he : S[n]? = some e) {acc : List Token}
    (hno : NoEOF acc) (ht : tilesFrom S 0 acc n) :
    TokInv S (n + 1) (tokenizeDefault (some e.char) e.line e.column acc) := by
  have hpos : posAt S n = e.pos := posAt_eq he
  have hchar : charAt S n = some e.char := by simp [charAt, he]
  simp only [tokenizeDefault]
  split_ifs with h1 h2 h3 h4 h5 h6 h7 h8 h9
  · exact ⟨n, hno, ht, by omega, by rw [hpos]; rfl, by
      simp only [Nat.add_sub_cancel]; rw [hpos]; rfl⟩
  · exact ⟨hno, by omega, by simpa using ht, by
      simp only [Nat.add_sub_cancel]; rw [hpos]; rfl⟩
  · exact ⟨hno, by omega, by simpa using ht, by
      simp only [Nat.add_sub_cancel]; rw [hpos]; rfl⟩
  · exact ⟨hno, by omega, by simpa using ht, by
      simp only [Nat.add_sub_cancel]; rw [hpos]; rfl⟩
  · exact ⟨hno, by omega, by simpa using ht, by
      simp only [Nat.add_sub_cancel]; rw [hpos]; rfl⟩
  · refine ⟨NoEOF_append hno rfl, ?_⟩
    refine tilesFrom_snoc ht (by omega) ?_ ?_
    · rw [hpos]; rfl
    · simp only [Nat.add_sub_cancel]; rw [hpos]; rfl
  · refine ⟨NoEOF_append hno rfl, ?_⟩
    refine tilesFrom_snoc ht (by omega) ?_ ?_
    · rw [hpos]; rfl
    · simp only [Nat.add_sub_cancel]; rw [hpos]; rfl
  · exact ⟨n, hno, ht, by omega, by rw [hpos]; rfl, by
      simp only [Nat.add_sub_cancel]; rw [hpos]; rfl, by rw [hchar, h8]⟩
  · exact ⟨n, hno, ht, by omega, by rw [hpos]; rfl, by
      simp only [Nat.add_sub_cancel]; rw [hpos]; rfl, by rw [hchar, h9]⟩
  · exact ⟨n, hno, ht, by omega, by rw [hpos]; rfl, by
      simp only [Nat.add_sub_cancel]; rw [hpos]; rfl⟩

theorem tokInv_step {S : List StreamEntry} {n : Nat} {e : StreamEntry}
    (he : S[n]? = some e) (ctx : TokenizerContext) (h : TokInv S n ctx) :
    TokInv S (n + 1) (tokenizeStep (some e.char) e.line e.column ctx) := by
  have hpos : posAt S n = e.pos := posAt_eq he
  cases ctx with
  | INITIAL =>
    have h0 : n = 0 := h
    subst h0
    simp only [tokenizeStep, tokenizeInitial]
    exact tokInv_tokenizeDefault he NoEOF_nil rfl
  | ERROR err => exact trivial
  | DEFAULT acc =>
    obtain ⟨hno, ht⟩ := h
    simp only [tokenizeStep]
    exact tokInv_tokenizeDefault he hno ht
  | PREV_L acc start =>
    obtain ⟨hno, hn1, htl, hst⟩ := h
    simp only [tokenizeStep, tokenizePrevL]
    by_cases hlt : (some e.char : Option Char) = some '<'
    · rw [if_pos hlt]
      refine ⟨NoEOF_append hno rfl,
        tilesFrom_snoc htl (show n - 1 < n + 1 by omega) ?_ ?_⟩
      · simpa [Token.range] using hst
      · simp [Token.range, Nat.add_sub_cancel, hpos, StreamEntry.pos]
    · rw [if_neg hlt]
      refine tokInv_tokenizeDefault he (NoEOF_append hno rfl) ?_
      refine tilesFrom_snoc htl (show n - 1 < n by omega) ?_ ?_
      · simpa [Token.range] using hst
      · simpa [Token.range] using hst
  | PREV_R acc start =>
    obtain ⟨hno, hn1, htl, hst⟩ := h
    simp only [tokenizeStep, tokenizePrevR]
    by_cases hlt : (some e.char : Option Char) = some '>'
    · rw [if_pos hlt]
      refine ⟨NoEOF_append hno rfl,
        tilesFrom_snoc htl (show n - 1 < n + 1 by omega) ?_ ?_⟩
      · simpa [Token.range] using hst
      · simp [Token.range, Nat.add_sub_cancel, hpos, StreamEntry.pos]
    · rw [if_neg hlt]
      refine tokInv_tokenizeDefault he (NoEOF_append hno rfl) ?_
      refine tilesFrom_snoc htl (show n - 1 < n by omega) ?_ ?_
      · simpa [Token.range] using hst
      · simpa [Token.range] using hst
  | PREV_AND acc start =>
    obtain ⟨hno, hn1, htl, hst⟩ := h
    simp only [tokenizeStep, tokenizePrevAnd]
    by_cases hlt : (some e.char : Option Char) = some '&'
    · rw [if_pos hlt]
      refine ⟨NoEOF_append hno rfl,
        tilesFrom_snoc htl (show n - 1 < n + 1 by omega) ?_ ?_⟩
      · simpa [Token.range] using hst
      · simp [Token.range, Nat.add_sub_cancel, hpos, StreamEntry.pos]
    · rw [if_neg hlt]
      exact trivial
  | PREV_OR acc start =>
    obtain ⟨hno, hn1, htl, hst⟩ := h
    simp only [tokenizeStep, tokenizePrevOr]
    by_cases hlt : (some e.char : Option Char) = some '|'
    · rw [if_pos hlt]
      refine ⟨NoEOF_append hno rfl,
        tilesFrom_snoc htl (show n - 1 < n + 1 by omega) ?_ ?_⟩
      · simpa [Token.range] using hst
      · simp [Token.range, Nat.add_sub_cancel, hpos, StreamEntry.pos]
    · rw [if_neg hlt]
      refine tokInv_tokenizeDefault he (NoEOF_append hno rfl) ?_
      refine tilesFrom_snoc htl (show n - 1 < n by omega) ?_ ?_
      · simpa [Token.range] using hst
      · simpa [Token.range] using hst
  | SPACE acc start stop =>
    obtain ⟨k, hno, htk, hkn, hst, hen⟩ := h
    simp only [tokenizeStep, tokenizeSpace]
    by_cases hws : e.char ∈ wsChars
    · rw [if_pos hws]
      exact ⟨k, hno, htk, by omega, hst, by
        simp [Nat.add_sub_cancel, hpos, StreamEntry.pos]⟩
    · rw [if_neg hws]
      refine tokInv_tokenizeDefault he (NoEOF_append hno rfl) ?_
      refine tilesFrom_snoc htk hkn ?_ ?_
      · simpa [Token.range] using hst
      · simpa [Token.range] using hen
  | WORD acc acc2 start stop =>
    obtain ⟨k, hno, htk, hkn, hst, hen⟩ := h
    simp only [tokenizeStep, tokenizeWord]
    by_cases hdl : e.char ∈ wordDelims
    · rw [if_pos hdl]
      refine tokInv_tokenizeDefault he (NoEOF_append hno rfl) ?_
      refine tilesFrom_snoc htk hkn ?_ ?_
      · simpa [Token.range] using hst
      · simpa [Token.range] using hen
    · rw [if_neg hdl]
      exact ⟨k, hno, htk, by omega, hst, by
        simp [Nat.add_sub_cancel, hpos, StreamEntry.pos]⟩
  | WORD_Q acc acc2 start stop =>
    obtain ⟨k, hno, htk, hkn, hst, hen, hq⟩ := h
    simp only [tokenizeStep, tokenizeWordQ]
    by_cases hqc : e.char = squote
    · rw [if_pos hqc]
      refine ⟨NoEOF_append hno rfl,
        tilesFrom_snoc htk (show k < n + 1 by omega) ?_ ?_⟩
      · simpa [Token.range] using hst
      · simp [Token.range, Nat.add_sub_cancel, hpos, StreamEntry.pos]
    · rw [if_neg hqc]
      exact ⟨k, hno, htk, by omega, hst, by
        simp [Nat.add_sub_cancel, hpos, StreamEntry.pos], hq⟩
  | WORD_DQ acc acc2 start stop =>
    obtain ⟨k, hno, htk, hkn, hst, hen, hq⟩ := h
    simp only [tokenizeStep, tokenizeWordDQ]
    by_cases hqc : e.char = dquote
    · rw [if_pos hqc]
      refine ⟨NoEOF_append hno rfl,
        tilesFrom_snoc htk (show k < n + 1 by omega) ?_ ?_⟩
      · simpa [Token.range] using hst
      · simp [Token.range, Nat.add_sub_cancel, hpos, StreamEntry.pos]
    · rw [if_neg hqc]
      exact ⟨k, hno, htk, by omega, hst, by
        simp [Nat.add_sub_cancel, hpos, StreamEntry.pos], hq⟩

theorem tokenizeRun_append (xs ys : List StreamEntry)
    (ctx : TokenizerContext) :
    tokenizeRun (xs ++ ys) ctx = tokenizeRun ys (tokenizeRun xs ctx) := by
  induction xs generalizing ctx with
  | nil => rfl
  | cons e xs ih =>
    rw [List.cons_append, tokenizeRun, tokenizeRun, ih]

theorem tokInv_run (S : List StreamEntry) :
    ∀ n, n ≤ S.length → TokInv S n (tokenizeRun (S.take n) .INITIAL) := by
  intro n
  induction n with
  | zero => intro _; exact rfl
  | succ n ih =>
    intro hn
    have hlt : n < S.length := by omega
    have he : S[n]? = some S[n] := List.getElem?_eq_getElem hlt
    rw [List.take_succ, he, Option.toList_some, tokenizeRun_append]
    have hprev := ih (by omega)
    have := tokInv_step he _ hprev
    rw [tokenizeRun, tokenizeRun] at *
    exact this

theorem tokInv_run_full (S : List StreamEntry) :
    TokInv S S.length (tokenizeRun S .INITIAL) := by
  have h := tokInv_run S S.length (le_refl _)
  rwa [List.take_length] at h

/-- Outcome shape of `tokenize`: on success the result is an `EOF`-free
token list tiling the whole character stream, followed by a single `EOF`
token at the sentinel coordinates; otherwise it is an error. -/
theorem tokenize_shape (input : List Char) :
    (∃ acc, tokenize input = .ok (acc ++ [.EOF ⟨⟨-1, -1⟩, ⟨-1, -1⟩⟩]) ∧
      NoEOF acc ∧
      tilesFrom (charStream input) 0 acc (charStream input).length) ∨
    (∃ e, tokenize input = .err e) := by
  have hInv := tokInv_run_full (charStream input)
  unfold tokenize finalContext
  cases hctx : tokenizeRun (charStream input) .INITIAL with
  | INITIAL =>
    rw [hctx] at hInv
    have h0 : (charStream input).length = 0 := hInv
    left
    refine ⟨[], ?_, NoEOF_nil, h0.symm⟩
    simp [tokenizeStep, tokenizeInitial, tokenizeDefault]
  | ERROR err =>
    right
    exact ⟨err, by simp [tokenizeStep]⟩
  | DEFAULT acc =>
    rw [hctx] at hInv
    obtain ⟨hno, ht⟩ := hInv
    left
    exact ⟨acc, by simp [tokenizeStep, tokenizeDefault], hno, ht⟩
  | SPACE acc start stop =>
    rw [hctx] at hInv
    obtain ⟨k, hno, htk, hkn, hst, hen⟩ := hInv
    left
    refine ⟨acc ++ [.SPACE ⟨start, stop⟩], ?_, ?_, ?_⟩
    · simp [tokenizeStep, tokenizeSpace, tokenizeDefault]
    · exact NoEOF_append hno rfl
    · exact tilesFrom_snoc htk hkn (by simpa [Token.range] using hst)
        (by simpa [Token.range] using hen)
  | WORD acc acc2 start stop =>
    rw [hctx] at hInv
    obtain ⟨k, hno, htk, hkn, hst, hen⟩ := hInv
    left
    refine ⟨acc ++ [.WORD acc2 ⟨start, stop⟩], ?_, ?_, ?_⟩
    · simp [tokenizeStep, tokenizeWord, tokenizeDefault]
    · exact NoEOF_append hno rfl
    · exact tilesFrom_snoc htk hkn (by simpa [Token.range] using hst)
        (by simpa [Token.range] using hen)
  | PREV_L acc start =>
    rw [hctx] at hInv
    obtain ⟨hno, hn1, htl, hst⟩ := hInv
    left
    refine ⟨acc ++ [.L ⟨start, start⟩], ?_, ?_, ?_⟩
    · simp [tokenizeStep, tokenizePrevL, tokenizeDefault]
    · exact NoEOF_append hno rfl
    · refine tilesFrom_snoc htl
        (show (charStream input).length - 1 < (charStream input).length by
          omega) ?_ ?_
      · simpa [Token.range] using hst
      · simpa [Token.range] using hst
  | PREV_R acc start =>
    rw [hctx] at hInv
    obtain ⟨hno, hn1, htl, hst⟩ := hInv
    left
    refine ⟨acc ++ [.R ⟨start, start⟩], ?_, ?_, ?_⟩
    · simp [tokenizeStep, tokenizePrevR, tokenizeDefault]
    · exact NoEOF_append hno rfl
    · refine tilesFrom_snoc htl
        (show (charStream input).length - 1 < (charStream input).length by
          omega) ?_ ?_
      · simpa [Token.range] using hst
      · simpa [Token.range] using hst
  | PREV_OR acc start =>
    rw [hctx] at hInv
    obtain ⟨hno, hn1, htl, hst⟩ := hInv
    left
    refine ⟨acc ++ [.PIPE ⟨start, start⟩], ?_, ?_, ?_⟩
    · simp [tokenizeStep, tokenizePrevOr, tokenizeDefault]
    · exact NoEOF_append hno rfl
    · refine tilesFrom_snoc htl
        (show (charStream input).length - 1 < (charStream input).length by
          omega) ?_ ?_
      · simpa [Token.range] using hst
      · simpa [Token.range] using hst
  | PREV_AND acc start =>
    right
    exact ⟨UnrecognizedToken (-1) (-1), by
      simp [tokenizeStep, tokenizePrevAnd]⟩
  | WORD_Q acc acc2 start stop =>
    right
    exact ⟨UnterminatedString start stop, by simp [tokenizeStep, tokenizeWordQ]⟩
  | WORD_DQ acc acc2 start stop =>
    right
    exact ⟨UnterminatedString start stop, by
      simp [tokenizeStep, tokenizeWordDQ]⟩

theorem posLe_refl (p : Position) : posLe p p := by
  simp [posLe]

theorem posLe_of_posLt {p q : Position} (h : posLt p q) : posLe p q := by
  simp only [posLt, posLe] at h ⊢
  omega

theorem not_posLe_of_posLt {p q : Position} (h : posLt p q) : ¬ posLe q p := by
  simp only [posLt, posLe] at h ⊢
  omega

theorem filter_inRange_eq_extract (S : List StreamEntry)
    (hp : S.Pairwise (fun x y => posLt x.pos y.pos)) (a c : Nat)
    (hac : a < c) (hc : c ≤ S.length) :
    S.filter (fun e => inRange ⟨posAt S a, posAt S (c - 1)⟩ e.pos) =
      (S.drop a).take (c - a) := by
  have hpg := List.pairwise_iff_getElem.mp hp
  have ha : a < S.length := by omega
  have hc1 : c - 1 < S.length := by omega
  have hpa : posAt S a = S[a].pos := by
    simp [posAt, List.getElem?_eq_getElem ha]
  have hpc : posAt S (c - 1) = S[c - 1].pos := by
    simp [posAt, List.getElem?_eq_getElem hc1]
  have hdrop2 : (S.drop a).drop (c - a) = S.drop c := by
    rw [List.drop_drop]
    congr 1
    omega
  have hdecomp : S =
      S.take a ++ ((S.drop a).take (c - a) ++ S.drop c) := by
    rw [← hdrop2, List.take_append_drop, List.take_append_drop]
  have hin : ∀ i (hi : i < S.length),
      (inRange ⟨posAt S a, posAt S (c - 1)⟩ S[i].pos = true) ↔
        (a ≤ i ∧ i ≤ c - 1) := by
    intro i hi
    simp only [inRange, hpa, hpc, Bool.and_eq_true, decide_eq_true_eq]
    constructor
    · rintro ⟨h1, h2⟩
      constructor
      · by_contra hia
        exact not_posLe_of_posLt (hpg i a hi ha (by omega)) h1
      · by_contra hic
        exact not_posLe_of_posLt (hpg (c - 1) i hc1 hi (by omega)) h2
    · rintro ⟨h1, h2⟩
      constructor
      · rcases Nat.eq_or_lt_of_le h1 with rfl | hlt
        · exact posLe_refl _
        · exact posLe_of_posLt (hpg a i ha hi hlt)
      · rcases Nat.eq_or_lt_of_le h2 with rfl | hlt
        · exact posLe_refl _
        · exact posLe_of_posLt (hpg i (c - 1) hi hc1 hlt)
  set r : PositionRange := ⟨posAt S a, posAt S (c - 1)⟩ with hrdef
  conv_lhs => rw [hdecomp]
  rw [List.filter_append, List.filter_append]
  have h1 : (S.take a).filter (fun e => inRange r e.pos) = [] := by
    rw [List.filter_eq_nil_iff]
    intro x hx
    obtain ⟨i, hi, hxe⟩ := List.mem_iff_getElem.mp hx
    have hia : i < a := by
      have := hi
      rw [List.length_take] at this
      omega
    rw [List.getElem_take] at hxe
    subst hxe
    intro hcon
    have := (hin i (by omega)).mp hcon
    omega
  have h2 : ((S.drop a).take (c - a)).filter (fun e => inRange r e.pos) =
      (S.drop a).take (c - a) := by
    rw [List.filter_eq_self]
    intro x hx
    obtain ⟨i, hi, hxe⟩ := List.mem_iff_getElem.mp hx
    have hib : i < c - a := by
      have := hi
      rw [List.length_take, List.length_drop] at this
      omega
    rw [List.getElem_take, List.getElem_drop] at hxe
    subst hxe
    exact (hin (a + i) (by omega)).mpr (by omega)
  have h3 : (S.drop c).filter (fun e => inRange r e.pos) = [] := by
    rw [List.filter_eq_nil_iff]
    intro x hx
    obtain ⟨i, hi, hxe⟩ := List.mem_iff_getElem.mp hx
    have hic : c + i < S.length := by
      have := hi
      rw [List.length_drop] at this
      omega
    rw [List.getElem_drop] at hxe
    subst hxe
    intro hcon
    have := (hin (c + i) hic).mp hcon
    omega
  rw [h1, h2, h3, List.nil_append, List.append_nil]

theorem tiles_flatten (S : List StreamEntry)
    (hp : S.Pairwise (fun x y => posLt x.pos y.pos)) (ts : List Token) :
    ∀ a b : Nat, tilesFrom S a ts b → b ≤ S.length →
      ((ts.map (fun t =>
          (S.filter (fun e => inRange t.range e.pos)).map
            (fun e => e.char))).flatten =
        ((S.drop a).take (b - a)).map (fun e => e.char)) := by
  induction ts with
  | nil =>
    intro a b hab _
    have : a = b := hab
    subst this
    simp
  | cons t ts ih =>
    intro a b h hb
    obtain ⟨c, h1, h2, hstart, hstop, htail⟩ := h
    have hrange : t.range = ⟨posAt S a, posAt S (c - 1)⟩ := by
      cases hr : t.range
      rw [hr] at hstart hstop
      simp only at hstart hstop
      rw [hstart, hstop]
    rw [List.map_cons, List.flatten_cons, hrange]
    rw [filter_inRange_eq_extract S hp a c h1 (by omega)]
    rw [ih c b htail hb]
    have hsum : b - a = (c - a) + (b - c) := by omega
    have hdd : (S.drop a).drop (c - a) = S.drop c := by
      rw [List.drop_drop]
      congr 1
      omega
    rw [hsum, List.take_add, List.map_append, hdd]

theorem step_none_cases (ctx : TokenizerContext) (l c : Int) :
    (∃ e, tokenizeStep none l c ctx = .ERROR e) ∨
    (∃ acc, tokenizeStep none l c ctx = .DEFAULT acc) := by
  cases ctx <;>
    simp [tokenizeStep, tokenizeInitial, tokenizeDefault, tokenizeSpace,
      tokenizeWord, tokenizeWordQ, tokenizeWordDQ, tokenizePrevL,
      tokenizePrevR, tokenizePrevAnd, tokenizePrevOr]

/-- C1: for every input, `tokenize` terminates (it is a total function of
this embedding) and returns exactly one of two outcomes — a token sequence
that ends with a single `EOF` token and contains no earlier `EOF`, or a
single `TokenizeError`. -/
theorem claim_c1_outcome (input : List Char) :
    (∃ acc, tokenize input = .ok (acc ++ [.EOF ⟨⟨-1, -1⟩, ⟨-1, -1⟩⟩]) ∧
        ∀ t ∈ acc, t.isEOF = false) ∨
    (∃ e, tokenize input = .err e) := by
  rcases tokenize_shape input with ⟨acc, hok, hno, _⟩ | h
  · exact Or.inl ⟨acc, hok, hno⟩
  · exact Or.inr h

/-- C3 counterexample: on empty input the final `EOF` token's range is the
zero-width point at line `-1`, column `-1` — the sentinel coordinates of the
end-of-input step — not line 1, column 0 as the claim states. -/
theorem claim_c3_counterexample :
    tokenize [] = .ok [.EOF ⟨⟨-1, -1⟩, ⟨-1, -1⟩⟩] ∧
      (Position.mk (-1) (-1)) ≠ (Position.mk 1 0) := by
  exact ⟨by decide, by decide⟩

/-- C3 (amended): for every input on which `tokenize` succeeds, the final
token is a single `EOF` whose range is the zero-width point at the fixed
sentinel coordinates line `-1`, column `-1` (for every input, also the empty
one), and `EOF` appears only as the last element of the sequence. -/
theorem claim_c3_eof_range (input : List Char) (ts : List Token)
    (h : tokenize input = .ok ts) :
    ∃ acc, ts = acc ++ [.EOF ⟨⟨-1, -1⟩, ⟨-1, -1⟩⟩] ∧
      ∀ t ∈ acc, t.isEOF = false := by
  rcases tokenize_shape input with ⟨acc, hok, hno, _⟩ | ⟨e, herr⟩
  · have heq := h.symm.trans hok
    injection heq with heq
    exact ⟨acc, heq, hno⟩
  · have := h.symm.trans herr
    cases this

theorem claim_c3_eof_range_witness :
    ∃ acc, [Token.WORD_Q [] ⟨⟨1, 0⟩, ⟨1, 1⟩⟩, .EOF ⟨⟨-1, -1⟩, ⟨-1, -1⟩⟩] =
        acc ++ [.EOF ⟨⟨-1, -1⟩, ⟨-1, -1⟩⟩] ∧ ∀ t ∈ acc, t.isEOF = false :=
  claim_c3_eof_range [squote, squote] _ (by decide)

/-- C5: in the `PREV_L`, `PREV_R` and `PREV_OR` states a matching second
character emits the two-character operator spanning both characters; any
other character (end-of-input included) first emits the single-character
token whose range is the lone character, then re-dispatches the very same
character through `tokenizeDefault`; consequently tokenizing `a<<b` yields
exactly `WORD "a"`, `LL`, `WORD "b"`, `EOF` with no `SPACE` tokens. -/
theorem claim_c5_two_char_ops :
    (∀ (l c : Int) (acc : List Token) (st : Position),
        tokenizePrevL (some '<') l c acc st =
          .DEFAULT (acc ++ [.LL ⟨st, ⟨l, c⟩⟩])) ∧
    (∀ (ch : Option Char) (l c : Int) (acc : List Token) (st : Position),
        ch ≠ some '<' →
        tokenizePrevL ch l c acc st =
          tokenizeDefault ch l c (acc ++ [.L ⟨st, st⟩])) ∧
    (∀ (l c : Int) (acc : List Token) (st : Position),
        tokenizePrevR (some '>') l c acc st =
          .DEFAULT (acc ++ [.RR ⟨st, ⟨l, c⟩⟩])) ∧
    (∀ (ch : Option Char) (l c : Int) (acc : List Token) (st : Position),
        ch ≠ some '>' →
        tokenizePrevR ch l c acc st =
          tokenizeDefault ch l c (acc ++ [.R ⟨st, st⟩])) ∧
    (∀ (l c : Int) (acc : List Token) (st : Position),
        tokenizePrevOr (some '|') l c acc st =
          .DEFAULT (acc ++ [.OR ⟨st, ⟨l, c⟩⟩])) ∧
    (∀ (ch : Option Char) (l c : Int) (acc : List Token) (st : Position),
        ch ≠ some '|' →
        tokenizePrevOr ch l c acc st =
          tokenizeDefault ch l c (acc ++ [.PIPE ⟨st, st⟩])) ∧
    tokenize ['a', '<', '<', 'b'] =
      .ok [.WORD ['a'] ⟨⟨1, 0⟩, ⟨1, 0⟩⟩, .LL ⟨⟨1, 1⟩, ⟨1, 2⟩⟩,
        .WORD ['b'] ⟨⟨1, 3⟩, ⟨1, 3⟩⟩, .EOF ⟨⟨-1, -1⟩, ⟨-1, -1⟩⟩] := by
  refine ⟨?_, ?_, ?_, ?_, ?_, ?_, by decide⟩
  · intro l c acc st
    simp [tokenizePrevL]
  · intro ch l c acc st hne
    simp [tokenizePrevL, hne]
  · intro l c acc st
    simp [tokenizePrevR]
  · intro ch l c acc st hne
    simp [tokenizePrevR, hne]
  · intro l c acc st
    simp [tokenizePrevOr]
  · intro ch l c acc st hne
    simp [tokenizePrevOr, hne]

theorem claim_c5_two_char_ops_witness :
    tokenizePrevL (some 'x') 1 2 [] ⟨1, 1⟩ =
      tokenizeDefault (some 'x') 1 2 ([] ++ [.L ⟨⟨1, 1⟩, ⟨1, 1⟩⟩]) ∧
    tokenizePrevR none (-1) (-1) [] ⟨1, 1⟩ =
      tokenizeDefault none (-1) (-1) ([] ++ [.R ⟨⟨1, 1⟩, ⟨1, 1⟩⟩]) ∧
    tokenizePrevOr (some 'x') 1 2 [] ⟨1, 1⟩ =
      tokenizeDefault (some 'x') 1 2 ([] ++ [.PIPE ⟨⟨1, 1⟩, ⟨1, 1⟩⟩]) :=
  ⟨claim_c5_two_char_ops.2.1 (some 'x') 1 2 [] ⟨1, 1⟩ (by decide),
   claim_c5_two_char_ops.2.2.2.1 none (-1) (-1) [] ⟨1, 1⟩ (by decide),
   claim_c5_two_char_ops.2.2.2.2.2.1 (some 'x') 1 2 [] ⟨1, 1⟩ (by decide)⟩

/-- C6: after a lone ampersand, a second ampersand emits `AND`; any other
character — end-of-input included — yields an `UnrecognizedToken` error at
the coordinates of that following character (there is no single-ampersand
token: the non-`&` branch never emits one); tokenizing `a &b` fails with
`UnrecognizedToken` at the position of `b`, line 1 column 3. -/
theorem claim_c6_prev_and :
    (∀ (l c : Int) (acc : List Token) (st : Position),
        tokenizePrevAnd (some '&') l c acc st =
          .DEFAULT (acc ++ [.AND ⟨st, ⟨l, c⟩⟩])) ∧
    (∀ (ch : Option Char) (l c : Int) (acc : List Token) (st : Position),
        ch ≠ some '&' →
        tokenizePrevAnd ch l c acc st = .ERROR (UnrecognizedToken l c)) ∧
    tokenize ['a', ' ', '&', 'b'] = .err (UnrecognizedToken 1 3) := by
  refine ⟨?_, ?_, by decide⟩
  · intro l c acc st
    simp [tokenizePrevAnd]
  · intro ch l c acc st hne
    simp [tokenizePrevAnd, hne]

theorem claim_c6_prev_and_witness :
    tokenizePrevAnd (some 'b') 1 3 [] ⟨1, 2⟩ =
      .ERROR (UnrecognizedToken 1 3) ∧
    tokenizePrevAnd none (-1) (-1) [] ⟨1, 2⟩ =
      .ERROR (UnrecognizedToken (-1) (-1)) :=
  ⟨claim_c6_prev_and.2.1 (some 'b') 1 3 [] ⟨1, 2⟩ (by decide),
   claim_c6_prev_and.2.1 none (-1) (-1) [] ⟨1, 2⟩ (by decide)⟩

/-- C8: for every input, after the final step fed the end-of-input sentinel
the automaton context is either `ERROR` or `DEFAULT` with its accumulated
list, so the `throw new Error("must never called")` branch (the
`internalError` outcome of the embedding) is unreachable. -/
theorem claim_c8_final_state (input : List Char) :
    ((∃ e, finalContext input = .ERROR e) ∨
      (∃ acc, finalContext input = .DEFAULT acc)) ∧
    tokenize input ≠ .internalError := by
  have hfc : (∃ e, finalContext input = .ERROR e) ∨
      (∃ acc, finalContext input = .DEFAULT acc) :=
    step_none_cases (tokenizeRun (charStream input) .INITIAL) (-1) (-1)
  refine ⟨hfc, ?_⟩
  rcases hfc with ⟨e, he⟩ | ⟨acc, ha⟩
  · unfold tokenize
    rw [he]
    simp
  · unfold tokenize
    rw [ha]
    simp

/-- C9 counterexample: the input of a single opening single quote produces
an error at end-of-input whose coordinates are the quote's recorded range
(line 1, column 0), not the sentinel coordinates `(-1, -1)` — refuting the
claim's assertion that any error produced at end-of-input carries the
coordinates `(-1, -1)`. -/
theorem claim_c9_counterexample :
    tokenize [squote] = .err (UnterminatedString ⟨1, 0⟩ ⟨1, 0⟩) ∧
      UnterminatedString ⟨1, 0⟩ ⟨1, 0⟩ ≠ UnrecognizedToken (-1) (-1) ∧
      (Position.mk 1 0) ≠ (Position.mk (-1) (-1)) := by
  exact ⟨by decide, by decide, by decide⟩

/-- C9 (amended): the end-of-input step is invoked with the fixed off-stream
coordinates line `-1`, column `-1`, so an `UnrecognizedToken` error produced
at end-of-input — i.e. for every input whose character stream leaves the
automaton in `PREV_AND` — carries those coordinates, not a position within
or just past the input (an `UnterminatedString` error at end-of-input
instead carries the quote state's recorded range). -/
theorem claim_c9_eoi_unrecognized (input : List Char) (acc : List Token)
    (st : Position)
    (h : tokenizeRun (charStream input) .INITIAL = .PREV_AND acc st) :
    tokenize input = .err (UnrecognizedToken (-1) (-1)) := by
  unfold tokenize finalContext
  rw [h]
  simp [tokenizeStep, tokenizePrevAnd]

theorem claim_c9_eoi_unrecognized_witness :
    tokenize ['a', ' ', '&'] = .err (UnrecognizedToken (-1) (-1)) :=
  claim_c9_eoi_unrecognized ['a', ' ', '&']
    [.WORD ['a'] ⟨⟨1, 0⟩, ⟨1, 0⟩⟩, .SPACE ⟨⟨1, 1⟩, ⟨1, 1⟩⟩] ⟨1, 2⟩
    (by decide)

/-- C10: empty quoted strings are accepted — two single quotes yield a
`WORD_Q` with empty body followed by `EOF`, two double quotes yield a
`WORD_DQ` with empty body followed by `EOF`. -/
theorem claim_c10_empty_quotes :
    tokenize [squote, squote] =
      .ok [.WORD_Q [] ⟨⟨1, 0⟩, ⟨1, 1⟩⟩, .EOF ⟨⟨-1, -1⟩, ⟨-1, -1⟩⟩] ∧
    tokenize [dquote, dquote] =
      .ok [.WORD_DQ [] ⟨⟨1, 0⟩, ⟨1, 1⟩⟩, .EOF ⟨⟨-1, -1⟩, ⟨-1, -1⟩⟩] := by
  exact ⟨by decide, by decide⟩

/-- C4: for every input on which end-of-input is reached while the
automaton is inside a single- or double-quote state, `tokenize` returns an
`UnterminatedString` error whose range runs from the opening quote's
position (the position of a stream entry holding the respective quote
character) to the position of the last character examined before
end-of-input (the last entry of the character stream). -/
theorem claim_c4_unterminated (input : List Char) (acc : List Token)
    (acc2 : List Char) (st en : Position)
    (h : tokenizeRun (charStream input) .INITIAL = .WORD_Q acc acc2 st en ∨
      tokenizeRun (charStream input) .INITIAL = .WORD_DQ acc acc2 st en) :
    tokenize input = .err (UnterminatedString st en) ∧
      (∃ k, k < (charStream input).length ∧
        st = posAt (charStream input) k ∧
        (charAt (charStream input) k = some squote ∨
          charAt (charStream input) k = some dquote)) ∧
      0 < (charStream input).length ∧
      en = posAt (charStream input) ((charStream input).length - 1) := by
  have hInv := tokInv_run_full (charStream input)
  rcases h with h | h
  · rw [h] at hInv
    obtain ⟨k, hno, htk, hkn, hst, hen, hq⟩ := hInv
    refine ⟨?_, ⟨k, by omega, hst, Or.inl hq⟩, by omega, hen⟩
    unfold tokenize finalContext
    rw [h]
    simp [tokenizeStep, tokenizeWordQ]
  · rw [h] at hInv
    obtain ⟨k, hno, htk, hkn, hst, hen, hq⟩ := hInv
    refine ⟨?_, ⟨k, by omega, hst, Or.inr hq⟩, by omega, hen⟩
    unfold tokenize finalContext
    rw [h]
    simp [tokenizeStep, tokenizeWordDQ]

theorem claim_c4_unterminated_witness :
    tokenize ['e', 'c', 'h', 'o', ' ', squote, 'h', 'i'] =
      .err (UnterminatedString ⟨1, 5⟩ ⟨1, 7⟩) :=
  (claim_c4_unterminated ['e', 'c', 'h', 'o', ' ', squote, 'h', 'i']
    [.WORD ['e', 'c', 'h', 'o'] ⟨⟨1, 0⟩, ⟨1, 3⟩⟩, .SPACE ⟨⟨1, 4⟩, ⟨1, 4⟩⟩]
    ['h', 'i'] ⟨1, 5⟩ ⟨1, 7⟩ (Or.inl (by decide))).1

/-- C7: for every input on which `tokenize` succeeds, concatenating, in
output order, the literal source text covered by the position ranges of all
tokens except `EOF` (the non-space tokens interleaved with the `SPACE`
tokens) reconstructs the original input exactly. -/
theorem claim_c7_position_coverage (input : List Char) (ts : List Token)
    (h : tokenize input = .ok ts) :
    ((ts.filter (fun t => ! t.isEOF)).map
        (fun t => sliceRange input t.range)).flatten = input := by
  rcases tokenize_shape input with ⟨acc, hok, hno, htiles⟩ | ⟨e, herr⟩
  · have heq := h.symm.trans hok
    injection heq with heq
    subst heq
    have hfa : ((acc ++ [Token.EOF ⟨⟨-1, -1⟩, ⟨-1, -1⟩⟩]).filter
        (fun t => ! t.isEOF)) = acc := by
      rw [List.filter_append]
      have h1 : acc.filter (fun t => ! t.isEOF) = acc :=
        List.filter_eq_self.mpr (fun t ht => by rw [hno t ht]; rfl)
      rw [h1]
      simp [Token.isEOF]
    rw [hfa]
    simp only [sliceRange]
    rw [tiles_flatten (charStream input) (charStream_pairwise input) acc 0
      (charStream input).length htiles (le_refl _)]
    rw [List.drop_zero, Nat.sub_zero, List.take_length, charStream_map_char]
  · have := h.symm.trans herr
    cases this

theorem claim_c7_position_coverage_witness :
    (([Token.WORD ['a'] ⟨⟨1, 0⟩, ⟨1, 0⟩⟩, .SPACE ⟨⟨1, 1⟩, ⟨1, 1⟩⟩,
        .AND ⟨⟨1, 2⟩, ⟨1, 3⟩⟩, .SPACE ⟨⟨1, 4⟩, ⟨1, 4⟩⟩,
        .WORD ['b'] ⟨⟨1, 5⟩, ⟨1, 5⟩⟩,
        .EOF ⟨⟨-1, -1⟩, ⟨-1, -1⟩⟩].filter (fun t => ! t.isEOF)).map
      (fun t => sliceRange ['a', ' ', '&', '&', ' ', 'b'] t.range)).flatten =
      ['a', ' ', '&', '&', ' ', 'b'] :=
  claim_c7_position_coverage ['a', ' ', '&', '&', ' ', 'b'] _ (by decide)

theorem streamAux_append_no_newline (s : List Char) (hn : '\n' ∉ s) :
    ∀ (l c : Nat) (t : List Char),
      streamAux l c (s ++ t) = streamAux l c s ++ streamAux l (c + s.length) t := by
  induction s with
  | nil =>
    intro l c t
    simp [streamAux]
  | cons ch rest ih =>
    intro l c t
    have hch : ch ≠ '\n' := fun hh => hn (hh ▸ List.mem_cons_self ch rest)
    rw [List.cons_append, streamAux, if_neg hch, streamAux, if_neg hch]
    rw [ih (fun hh => hn (List.mem_cons_of_mem ch hh)) l (c + 1) t]
    have harith : c + 1 + rest.length = c + (rest.length + 1) := by omega
    simp [harith]

theorem run_wordDQ_accum (s : List Char) (hs : dquote ∉ s) :
    ∀ (l c : Nat) (acc : List Token) (b : List Char) (st en : Position),
      ∃ en', tokenizeRun (streamAux l c s) (.WORD_DQ acc b st en) =
        .WORD_DQ acc (b ++ s) st en' := by
  induction s with
  | nil =>
    intro l c acc b st en
    exact ⟨en, by simp [streamAux, tokenizeRun]⟩
  | cons ch rest ih =>
    intro l c acc b st en
    have hch : ch ≠ dquote := fun hh => hs (hh ▸ List.mem_cons_self ch rest)
    have hrest : dquote ∉ rest := fun hh => hs (List.mem_cons_of_mem ch hh)
    have hstep : ∀ (li co : Int),
        tokenizeStep (some ch) li co (.WORD_DQ acc b st en) =
          .WORD_DQ acc (b ++ [ch]) st ⟨li, co⟩ := by
      intro li co
      simp [tokenizeStep, tokenizeWordDQ, hch]
    rw [streamAux]
    by_cases hnl : ch = '\n'
    · rw [if_pos hnl, tokenizeRun]
      simp only [hstep]
      obtain ⟨en', hrun⟩ := ih hrest (l + 1) 0 acc (b ++ [ch]) st ⟨(l : Int), (c : Int)⟩
      refine ⟨en', ?_⟩
      rw [hrun, List.append_assoc]
      rfl
    · rw [if_neg hnl, tokenizeRun]
      simp only [hstep]
      obtain ⟨en', hrun⟩ := ih hrest l (c + 1) acc (b ++ [ch]) st ⟨(l : Int), (c : Int)⟩
      refine ⟨en', ?_⟩
      rw [hrun, List.append_assoc]
      rfl

/-- C2 (the claim's positive content, proved of the `part_000` variant):
while lexing a double-quoted string every character other than the closing
double quote is appended to the accumulator and the automaton stays in
`WORD_DQ`; the closing double quote emits a `WORD_DQ` token carrying exactly
the accumulated body and moves directly to `DEFAULT`; hence for every `s`
free of double quotes and newlines, tokenizing a double-quoted `s` succeeds
and the output contains a `WORD_DQ` token with body `s`.  The fourth
conjunct documents the divergence of the `index.ts` variant: its
`tokenizeWordDQ` hands back a `WORD_Q` continuation, so there the same
double-quoted word is reported as an unterminated string. -/
theorem claim_c2_word_dq :
    (∀ (ch : Char) (l c : Int) (acc : List Token) (b : List Char)
        (st en : Position), ch ≠ dquote →
        tokenizeWordDQ (some ch) l c acc b st en =
          .WORD_DQ acc (b ++ [ch]) st ⟨l, c⟩) ∧
    (∀ (l c : Int) (acc : List Token) (b : List Char) (st en : Position),
        tokenizeWordDQ (some dquote) l c acc b st en =
          .DEFAULT (acc ++ [.WORD_DQ b ⟨st, ⟨l, c⟩⟩])) ∧
    (∀ s : List Char, dquote ∉ s → '\n' ∉ s →
        ∃ ts r, tokenize (dquote :: (s ++ [dquote])) = .ok ts ∧
          Token.WORD_DQ s r ∈ ts) ∧
    IndexTs.tokenize [dquote, 'a', dquote] =
      .err (IndexTs.UnterminatedString (-1) (-1)) := by
  refine ⟨?_, ?_, ?_, by decide⟩
  · intro ch l c acc b st en hch
    simp [tokenizeWordDQ, hch]
  · intro l c acc b st en
    simp [tokenizeWordDQ]
  · intro s hq hn
    have hdq : (dquote : Char) ≠ '\n' := by decide
    have hcs : charStream (dquote :: (s ++ [dquote])) =
        streamAux 1 0 (dquote :: (s ++ [dquote])) :=
      charStream_eq_streamAux _
    have hsplit : streamAux 1 0 (dquote :: (s ++ [dquote])) =
        ⟨dquote, 1, 0⟩ :: (streamAux 1 1 s ++ streamAux 1 (1 + s.length) [dquote]) := by
      rw [streamAux, if_neg hdq, streamAux_append_no_newline s hn 1 1 [dquote]]
      norm_num
    have hstep1 : tokenizeStep (some dquote) 1 0 .INITIAL =
        .WORD_DQ [] [] ⟨1, 0⟩ ⟨1, 0⟩ := by decide
    obtain ⟨en', hrun⟩ := run_wordDQ_accum s hq 1 1 [] [] ⟨1, 0⟩ ⟨1, 0⟩
    have hstep2 : ∀ (en2 : Position),
        tokenizeRun (streamAux 1 (1 + s.length) [dquote])
            (.WORD_DQ [] s ⟨1, 0⟩ en2) =
          .DEFAULT [.WORD_DQ s ⟨⟨1, 0⟩, ⟨1, ((1 + s.length : Nat) : Int)⟩⟩] := by
      intro en2
      rw [streamAux, if_neg hdq]
      rw [show streamAux 1 (1 + s.length + 1) [] = [] from rfl]
      rw [tokenizeRun, tokenizeRun]
      simp [tokenizeStep, tokenizeWordDQ]
    have hrunall : tokenizeRun (charStream (dquote :: (s ++ [dquote])))
        .INITIAL =
        .DEFAULT [.WORD_DQ s ⟨⟨1, 0⟩, ⟨1, ((1 + s.length : Nat) : Int)⟩⟩] := by
      rw [hcs, hsplit, tokenizeRun]
      show tokenizeRun (streamAux 1 1 s ++ streamAux 1 (1 + s.length) [dquote])
        (tokenizeStep (some dquote) 1 0 .INITIAL) =
        .DEFAULT [.WORD_DQ s ⟨⟨1, 0⟩, ⟨1, ((1 + s.length : Nat) : Int)⟩⟩]
      rw [hstep1, tokenizeRun_append, hrun]
      simp only [List.nil_append]
      exact hstep2 en'
    refine ⟨[.WORD_DQ s ⟨⟨1, 0⟩, ⟨1, ((1 + s.length : Nat) : Int)⟩⟩,
        .EOF ⟨⟨-1, -1⟩, ⟨-1, -1⟩⟩],
      ⟨⟨1, 0⟩, ⟨1, ((1 + s.length : Nat) : Int)⟩⟩, ?_, List.mem_cons_self _ _⟩
    unfold tokenize finalContext
    rw [hrunall]
    simp [tokenizeStep, tokenizeDefault]

theorem claim_c2_word_dq_witness :
    tokenizeWordDQ (some 'x') 1 2 [] [] ⟨1, 0⟩ ⟨1, 0⟩ =
      .WORD_DQ [] ([] ++ ['x']) ⟨1, 0⟩ ⟨1, 2⟩ ∧
    (∃ ts r, tokenize (dquote :: (['h', 'i'] ++ [dquote])) = .ok ts ∧
      Token.WORD_DQ ['h', 'i'] r ∈ ts) :=
  ⟨claim_c2_word_dq.1 'x' 1 2 [] [] ⟨1, 0⟩ ⟨1, 0⟩ (by decide),
   claim_c2_word_dq.2.2.1 ['h', 'i'] (by decide) (by decide)⟩
